import Mathlib

/-!
Shallow embedding of `cmd/oas-indexer/main.go` (the oas-indexer CLI).

Conventions of the embedding:
- Go strings are modelled as Lean `String`; the program only ever manipulates
  ASCII file names, YAML keys and reference tokens, for which Go's byte-wise
  operations (indexing, `ToLower`, `ToUpper`, lexicographic `<`) agree with
  Lean's `Char`-wise operations.
- Go standard-library path helpers (`filepath.Rel`, `filepath.Base`,
  `filepath.Dir`) are modelled for slash-separated paths; `filepath.Rel` is
  modelled for the only case the program exercises (a target lexically under
  the base), returning `none` where Go would return an error or a `..`-form.
- Go maps used as dictionaries (`buildNameMap`, `validMethods`) are modelled
  as update-functions or membership lists; Go map reads of absent keys give
  the zero value `""`/`false`, which the models reproduce.
- The file system is modelled as a tree of named entries (`FSEntry`), and
  `filepath.WalkDir` as a depth-first traversal of that tree.
-/

namespace Oas

/-- Single-quote character (ASCII 39). -/
def sq : Char := Char.ofNat 39

/-- Double-quote character (ASCII 34). -/
def dq : Char := Char.ofNat 34

/-- Opening curly brace character (ASCII 123). -/
def obr : Char := Char.ofNat 123

/-- Closing curly brace character (ASCII 125). -/
def cbr : Char := Char.ofNat 125

/-- Whitespace test matching Go `unicode.IsSpace` on ASCII
(space, tab, newline, vertical tab, form feed, carriage return). -/
def isSpaceCh (c : Char) : Bool :=
  c = ' ' || c = Char.ofNat 9 || c = Char.ofNat 10 ||
  c = Char.ofNat 11 || c = Char.ofNat 12 || c = Char.ofNat 13

/-- Models Go `strings.ToLower` (ASCII). -/
def toLowerS (s : String) : String := ⟨s.data.map Char.toLower⟩

/-- Models Go `strings.ToUpper` (ASCII). -/
def toUpperS (s : String) : String := ⟨s.data.map Char.toUpper⟩

/-- Boolean list-prefix test. -/
def isPre : List Char → List Char → Bool
  | [], _ => true
  | _ :: _, [] => false
  | c :: cs, d :: ds => c = d && isPre cs ds

/-- Models Go `strings.HasPrefix`. -/
def strStarts (s pat : String) : Bool := isPre pat.data s.data

/-- Models Go `strings.HasSuffix`. -/
def strEnds (s pat : String) : Bool := isPre pat.data.reverse s.data.reverse

/-- Models Go `strings.TrimSuffix`. -/
def trimSuffixS (s suf : String) : String :=
  if strEnds s suf then ⟨s.data.take (s.data.length - suf.data.length)⟩ else s

/-- Models Go `strings.TrimSpace`. -/
def trimSpaceS (s : String) : String :=
  ⟨((s.data.dropWhile isSpaceCh).reverse.dropWhile isSpaceCh).reverse⟩

/-- Models Go `strings.Trim` with a one-character cutset. -/
def trimCharS (c : Char) (s : String) : String :=
  ⟨((s.data.dropWhile (· = c)).reverse.dropWhile (· = c)).reverse⟩

/-- Splits a character list on a separator character; mirrors Go
`strings.Split` with a one-character separator (never returns an empty list). -/
def splitCharL (c : Char) : List Char → List (List Char)
  | [] => [[]]
  | x :: xs =>
    let r := splitCharL c xs
    if x = c then [] :: r
    else
      match r with
      | [] => [[x]]
      | g :: gs => (x :: g) :: gs

/-- String-level split on one character, mirrors Go `strings.Split`. -/
def splitOnCh (c : Char) (s : String) : List String :=
  (splitCharL c s.data).map (fun l => ⟨l⟩)

/-- Joins strings with a separator, mirrors Go `strings.Join`. -/
def joinSep (sep : String) : List String → String
  | [] => ""
  | [x] => x
  | x :: y :: ys => x ++ sep ++ joinSep sep (y :: ys)

/-- First index at which `pat` occurs in `s`, mirrors Go `strings.Index`
(character index; identical to Go's byte index on ASCII input). -/
def idxOfL (pat : List Char) : List Char → Option Nat
  | [] => if pat.isEmpty then some 0 else none
  | c :: cs => if isPre pat (c :: cs) then some 0 else (idxOfL pat cs).map (· + 1)

/-- Models Go `strings.Index`. -/
def strIndexOf (s pat : String) : Option Nat := idxOfL pat.data s.data

/-- Drops the first `n` characters of a string (Go slice `s[n:]` on ASCII). -/
def dropS (s : String) (n : Nat) : String := ⟨s.data.drop n⟩

/-- Takes the first `n` characters of a string (Go slice `s[:n]` on ASCII). -/
def takeS (s : String) (n : Nat) : String := ⟨s.data.take n⟩

/-- Character-level worker for `kebabToCamel`; `up` is the Go `up` flag. -/
def kebabToCamelAux : Bool → List Char → List Char
  | _, [] => []
  | up, c :: cs =>
    if c = '-' || c = '_' || c = ' ' then kebabToCamelAux true cs
    else (if up then c.toUpper else c) :: kebabToCamelAux false cs

/-- Embeds `kebabToCamel` from cmd/oas-indexer/main.go: converts
kebab/snake/space separated words to camelCase. -/
def kebabToCamel (s : String) : String := ⟨kebabToCamelAux false s.data⟩

/-- Embeds `pascalCase` from cmd/oas-indexer/main.go: camel-case then
upper-case the first character. -/
def pascalCase (s : String) : String :=
  match (kebabToCamel s).data with
  | [] => ""
  | c :: cs => ⟨c.toUpper :: cs⟩

/-- Models Go `filepath.Rel` for the only shape the program relies on: a
target lexically under the base directory (or equal to it). Other shapes,
where Go would produce an error or a `..`-relative path, are modelled as
`none`; both call sites (`buildPathKey`, `relFrom`) treat that as Go treats
the error return. -/
def filepathRel (base target : String) : Option String :=
  if base = target then some "."
  else if isPre (base ++ "/").data target.data then
    some ⟨target.data.drop (base.data.length + 1)⟩
  else none

/-- Models Go `filepath.Base` for slash-separated paths. -/
def baseName (s : String) : String :=
  match (splitOnCh '/' s).reverse with
  | [] => s
  | last :: _ => last

/-- Models Go `filepath.Dir` for slash-separated paths. -/
def dirOf (s : String) : String :=
  let parts := splitOnCh '/' s
  if parts.length ≤ 1 then "."
  else
    let d := joinSep "/" parts.dropLast
    if d = "" then (if strStarts s "/" then "/" else ".") else d

/-- Embeds `relFrom` from cmd/oas-indexer/main.go: target path expressed
relative to `baseDir`, with a `./` prefix for plain relative results. -/
def relFrom (baseDir target : String) : String :=
  match filepathRel baseDir target with
  | none => target
  | some rel =>
    if rel = "" || rel = "." then "./"
    else if strStarts rel "." || strStarts rel "/" then rel
    else "./" ++ rel

/-- Embeds `buildPathKey` from cmd/oas-indexer/main.go: derives the API path
key from a fragment's location under the paths root. -/
def buildPathKey (pathsDir fullPath : String) : String :=
  match filepathRel pathsDir fullPath with
  | none => ""
  | some rel =>
    let segs := splitOnCh '/' rel
    match segs.reverse with
    | [] => ""
    | file :: revDirs =>
      let dirs := revDirs.reverse
      let tail := kebabToCamel (trimSuffixS file ".yaml")
      match dirs with
      | [] => "/" ++ tail
      | version :: rest =>
        let remainder := joinSep "/" rest
        if remainder = "" then "/" ++ version ++ "/" ++ tail
        else "/" ++ version ++ "/" ++ remainder ++ "/" ++ tail

/-! File-system model and the Fragment Store (`listYAMLFiles`). -/

/-- A file-system tree: a regular file or a directory with entries.
Models the directory trees walked by `filepath.WalkDir`. -/
inductive FSEntry where
  | file (name : String)
  | dir (name : String) (entries : List FSEntry)

/-- Name of a file-system entry. -/
def entryName : FSEntry → String
  | .file n => n
  | .dir n _ => n

mutual
/-- Visit of one entry during the walk of `listYAMLFiles`; `isRoot` is true
exactly for the walk's root directory (Go compares `path != root`).
Mirrors the `WalkDir` callback: a directory (other than the root) whose name
starts with `.` is pruned with `SkipDir`; a regular file is collected when
its lower-cased name ends in `.yaml`. Dot-prefixed regular files are not
excluded by the callback (its dot branch only acts on directories). -/
def walkEntry (isRoot : Bool) (path : String) : FSEntry → List String
  | .file n => if strEnds (toLowerS n) ".yaml" then [path] else []
  | .dir n es =>
    if strStarts n "." && !isRoot then []
    else walkList path es

/-- Depth-first visit of a directory's entries. -/
def walkList (path : String) : List FSEntry → List String
  | [] => []
  | e :: es => walkEntry false (path ++ "/" ++ entryName e) e ++ walkList path es
end

/-- Embeds `listYAMLFiles` from cmd/oas-indexer/main.go. The root is given as
`none` when `os.Stat` fails (the root does not exist), `some (.file _)` when
it exists but is not a directory; both give an empty result with no error. -/
def listYAMLFiles (root : String) : Option FSEntry → List String
  | none => []
  | some (.file _) => []
  | some (.dir n es) => walkEntry true root (.dir n es)

/-! Name Resolver (`buildNameMap`) and Reference Rewriter (`rewriteRefs`). -/

/-- One Go map assignment `m[k] = v`, as a function update. -/
def insertKey (m : String → String) (k v : String) : String → String :=
  fun x => if x = k then v else m x

/-- The per-file update performed by the loop body of `buildNameMap`:
`m[strings.ToLower(base)] = name; m[strings.ToLower(filepath.Base(f))] = name`. -/
def nameMapStep (m : String → String) (f : String) : String → String :=
  let base := trimSuffixS (baseName f) ".yaml"
  let name := pascalCase base
  insertKey (insertKey m (toLowerS base) name) (toLowerS (baseName f)) name

/-- Embeds `buildNameMap` from cmd/oas-indexer/main.go, as a function of the
file list returned by `listYAMLFiles` on the scanned directory. A Go map read
of an absent key yields `""`, so the map is modelled as a total function with
default `""`. -/
def buildNameMap (files : List String) : String → String :=
  files.foldl nameMapStep (fun _ => "")

/-- Embeds `stripQuotes` from cmd/oas-indexer/main.go. -/
def stripQuotes (s : String) : String :=
  let t := trimSpaceS s
  match t.data with
  | c :: cs =>
    match cs.reverse with
    | d :: mid =>
      if (c = dq && d = dq) || (c = sq && d = sq) then ⟨mid.reverse⟩ else t
    | [] => t
  | [] => t

/-- Character admissible inside the capture group `[^/#\s]+` of the
`reSchemaPath` / `reParamPath` regular expressions. -/
def okCapCh (c : Char) : Bool := !(c = '/' || c = '#' || isSpaceCh c)

/-- Splits a path segment `name ++ ext` where `ext` matches `\.ya?ml$`
case-insensitively and `name` is a non-empty `[^/#\s]+` capture.
Returns the capture (original case). -/
def splitExtCap (seg : List Char) : Option String :=
  let low := seg.map Char.toLower
  if isPre (".yaml".data.reverse) low.reverse then
    let name := seg.take (seg.length - 5)
    if name.isEmpty then none
    else if name.all okCapCh then some ⟨name⟩ else none
  else if isPre (".yml".data.reverse) low.reverse then
    let name := seg.take (seg.length - 4)
    if name.isEmpty then none
    else if name.all okCapCh then some ⟨name⟩ else none
  else none

/-- Models the anchored regular expression
`(?i)(?:^|.*/)(?:components/)?schemas/([^/#\s]+)\.ya?ml$` (and its
`parameters` twin) by the equivalent segment condition: the next-to-last
slash-separated segment equals the keyword case-insensitively, and the last
segment splits as `capture ++ extension`. -/
def matchComponentPath (kw : String) (val : String) : Option String :=
  match (splitCharL '/' val.data).reverse with
  | last :: before :: _ =>
    if (⟨before.map Char.toLower⟩ : String) = kw then splitExtCap last else none
  | _ => none

/-- Rewrite of one line by the loop body of `rewriteRefs`. -/
def rewriteLine (schemaMap paramMap : String → String) (ln : String) : String :=
  match strIndexOf ln "$ref:" with
  | none => ln
  | some idx =>
    let left := takeS ln idx
    let rest := trimSpaceS (dropS ln (idx + 5))
    if rest = "" then ln
    else
      let val := stripQuotes rest
      if strStarts val "#/components/" then ln
      else
        let low := toLowerS val
        if strStarts low "schema:" then
          left ++ "$ref: #/components/schemas/" ++ pascalCase (trimSpaceS (dropS val 7))
        else if strStarts low "param:" then
          left ++ "$ref: #/components/parameters/" ++ pascalCase (trimSpaceS (dropS val 6))
        else
          match matchComponentPath "schemas" val with
          | some cap =>
            let base := toLowerS cap
            let name := schemaMap base
            let name := if name = "" then pascalCase cap else name
            left ++ "$ref: #/components/schemas/" ++ name
          | none =>
            match matchComponentPath "parameters" val with
            | some cap =>
              let base := toLowerS cap
              let name := paramMap base
              let name := if name = "" then pascalCase cap else name
              left ++ "$ref: #/components/parameters/" ++ name
            | none => ln

/-- Embeds `rewriteRefs` from cmd/oas-indexer/main.go: split into lines,
rewrite each line, rejoin. -/
def rewriteRefs (raw : String) (schemaMap paramMap : String → String) : String :=
  joinSep "\n" ((splitOnCh (Char.ofNat 10) raw).map (rewriteLine schemaMap paramMap))

/-! Root Composer: `writeRootYAML` (reference mode) and
`writeRootJoinedYAML` (inlined mode), as functions from the discovered
fragment lists to the emitted text. -/

/-- Repeated-space padding, models `strings.Repeat(" ", n)`. -/
def padSpaces : Nat → String
  | 0 => ""
  | n + 1 => " " ++ padSpaces n

/-- Removes every trailing newline, models `strings.TrimRight(s, "\n")`. -/
def trimRightNL (s : String) : String :=
  ⟨(s.data.reverse.dropWhile (· = Char.ofNat 10)).reverse⟩

/-- Embeds `indentText` from cmd/oas-indexer/main.go. -/
def indentText (s : String) (spaces : Nat) : String :=
  let pad := padSpaces spaces
  let lines := (splitOnCh (Char.ofNat 10) s).map
    (fun l => if l = "" then l else pad ++ l)
  trimRightNL (joinSep "\n" lines) ++ "\n"

/-- The Go byte-wise string order used by `sort.Strings`; on UTF-8 encoded
strings byte order and code-point order coincide, so Lean's lexicographic
`≤` on `String` models it. -/
def sortStrings (l : List String) : List String :=
  List.insertionSort (· ≤ ·) l

/-- The fixed document header emitted by both composers. -/
def yamlHeader : String :=
  "openapi: \"3.0.0\"\ninfo:\n  title: API\n  version: \"1.0.0\"\n"

/-- One `paths` entry of the reference-mode composer (empty for a fragment
whose path key cannot be derived, which the loop skips). -/
def refPathEntry (pathsDir rootDir p : String) : String :=
  let key := buildPathKey pathsDir p
  if key = "" then ""
  else "  " ++ key ++ ":\n    $ref: " ++ relFrom rootDir p ++ "\n"

/-- One `components` entry of the reference-mode composer. -/
def refComponentEntry (rootDir f : String) : String :=
  let base := trimSuffixS (baseName f) ".yaml"
  "    " ++ pascalCase base ++ ":\n      $ref: " ++ relFrom rootDir f ++ "\n"

/-- Embeds `writeRootYAML` from cmd/oas-indexer/main.go as the text it writes.
`rootDir` is `filepath.Dir(cfg.RootPath)`; `paths`, `schemas`, `params` are
the lists returned by `listYAMLFiles` on the three fragment directories, in
discovery order (the function sorts them itself). -/
def writeRootYAML (pathsDir rootDir : String)
    (paths schemas params : List String) : String :=
  yamlHeader
  ++ "paths:\n"
  ++ String.join ((sortStrings paths).map (refPathEntry pathsDir rootDir))
  ++ "components:\n  schemas:\n"
  ++ String.join ((sortStrings schemas).map (refComponentEntry rootDir))
  ++ "  parameters:\n"
  ++ String.join ((sortStrings params).map (refComponentEntry rootDir))

/-- One `paths` entry of the inlined-mode composer. -/
def joinedPathEntry (pathsDir : String) (content : String → String)
    (sm pm : String → String) (p : String) : String :=
  let key := buildPathKey pathsDir p
  if key = "" then ""
  else "  " ++ key ++ ":\n" ++ indentText (rewriteRefs (content p) sm pm) 4

/-- One `components` entry of the inlined-mode composer. -/
def joinedComponentEntry (content : String → String)
    (sm pm : String → String) (f : String) : String :=
  let base := trimSuffixS (baseName f) ".yaml"
  "    " ++ pascalCase base ++ ":\n" ++ indentText (rewriteRefs (content f) sm pm) 6

/-- Embeds `writeRootJoinedYAML` from cmd/oas-indexer/main.go as the text it
writes. `content` models `readText` (file path to file content); the name
maps are built by `buildNameMap` from the discovery-order lists exactly as
the Go code rebuilds them from the same directories. -/
def writeRootJoinedYAML (pathsDir : String) (content : String → String)
    (paths schemas params : List String) : String :=
  let sm := buildNameMap schemas
  let pm := buildNameMap params
  yamlHeader
  ++ "paths:\n"
  ++ String.join ((sortStrings paths).map (joinedPathEntry pathsDir content sm pm))
  ++ "components:\n  schemas:\n"
  ++ String.join ((sortStrings schemas).map (joinedComponentEntry content sm pm))
  ++ "  parameters:\n"
  ++ String.join ((sortStrings params).map (joinedComponentEntry content sm pm))

/-! Rule Engine: validation rules, presets and `validatePaths`. -/

/-- A parsed YAML value as far as the validators inspect it: an object
(Go `map[string]interface{}`, modelled as an association list in document
order) or any other value. -/
inductive YVal where
  | obj (fields : List (String × YVal))
  | other

/-- An operation object, the `map[string]interface{}` passed to every rule. -/
def OpObj := List (String × YVal)

/-- Go `operation[k]` existence test. -/
def opHas (op : OpObj) (k : String) : Bool :=
  op.any (fun kv => kv.1 = k)

/-- Go `operation[k]` lookup. -/
def opGet (op : OpObj) (k : String) : Option YVal :=
  (List.find? (fun kv => kv.1 = k) op).map (fun kv => kv.2)

/-- Embeds the `ValidationRule` struct: name, description and predicate.
The predicate returns `some message` where the Go function returns an error. -/
structure VRule where
  name : String
  description : String
  validate : String → String → OpObj → Option String

/-- Embeds the `ValidationPreset` struct. -/
structure VPreset where
  name : String
  description : String
  rules : List VRule

/-- Embeds the `ValidationResult` struct. -/
structure VResult where
  path : String
  method : String
  rule : String
  message : String
  severity : String
deriving DecidableEq

/-- Quoted-in-single-quotes helper used by several `fmt.Errorf` formats. -/
def quoted (s : String) : String := sq.toString ++ s ++ sq.toString

/-- The `validMethods` map keys of `validateHTTPMethods` (Go map read of an
absent key yields `false`, so the map is its key list). -/
def validMethods : List String :=
  ["get", "post", "put", "patch", "delete", "head", "options"]

/-- Embeds `validateHTTPMethods` from cmd/oas-indexer/main.go. -/
def validateHTTPMethods (_path method : String) (_op : OpObj) : Option String :=
  if validMethods.contains (toLowerS method) then none
  else some ("invalid HTTP method " ++ quoted method ++
    ", should be one of: GET, POST, PUT, PATCH, DELETE, HEAD, OPTIONS")

/-- The fixed `singularWords` list of `validatePluralCollections`. -/
def singularWords : List String :=
  ["account", "user", "mission", "reward", "partner", "activity", "car", "member",
   "order", "product", "service", "item", "category", "group", "role", "permission",
   "resource", "entity", "record", "document", "file", "image", "video", "comment"]

/-- Embeds `makePlural` from cmd/oas-indexer/main.go. -/
def makePlural (word : String) : String :=
  if strEnds word "y" then trimSuffixS word "y" ++ "ies"
  else if strEnds word "s" || strEnds word "ch" || strEnds word "sh" then word ++ "es"
  else word ++ "s"

/-- Version-segment test `^v\d+$` used by two rules. -/
def isVersionSeg (s : String) : Bool :=
  match s.data with
  | c :: rest => c = 'v' && !rest.isEmpty && rest.all Char.isDigit
  | [] => false

/-- Segment test for the `{param}` skip of `validatePluralCollections`
(Go `strings.HasPrefix(segment, "{") && strings.HasSuffix(segment, "}")`). -/
def isBraced (s : String) : Bool :=
  strStarts s obr.toString && strEnds s cbr.toString

/-- The path segments examined by the segment rules:
`strings.Split(strings.Trim(path, "/"), "/")`. -/
def pathSegments (path : String) : List String :=
  splitOnCh '/' (trimCharS '/' path)

/-- Inner loops of `validatePluralCollections` over the segment list. -/
def pluralViolation : List String → Option String
  | [] => none
  | seg :: rest =>
    if isBraced seg then pluralViolation rest
    else if isVersionSeg seg then pluralViolation rest
    else
      match List.find? (fun w => toLowerS seg = w) singularWords with
      | some w =>
        some ("collection name " ++ quoted seg ++ " should be plural: " ++
          quoted (makePlural w))
      | none => pluralViolation rest

/-- Embeds `validatePluralCollections` from cmd/oas-indexer/main.go. -/
def validatePluralCollections (path _method : String) (_op : OpObj) : Option String :=
  pluralViolation (pathSegments path)

/-- Models the regular expression `^[a-z0-9]+(-[a-z0-9]+)*$|^v\d+$|^\{[^}]+\}$`
of `validateKebabCase`. -/
def kebabSegOk (s : String) : Bool :=
  (let groups := splitCharL '-' s.data
   groups.all (fun g => !g.isEmpty && g.all (fun c => c.isLower || c.isDigit)))
  || isVersionSeg s
  || (match s.data with
      | c :: rest =>
        c = obr && (match rest.reverse with
          | d :: mid => d = cbr && !mid.isEmpty && mid.all (fun x => x ≠ cbr)
          | [] => false)
      | [] => false)

/-- Inner loop of `validateKebabCase`. -/
def kebabViolation : List String → Option String
  | [] => none
  | seg :: rest =>
    if kebabSegOk seg then kebabViolation rest
    else some ("path segment " ++ quoted seg ++
      " should use kebab-case (lowercase with dashes)")

/-- Embeds `validateKebabCase` from cmd/oas-indexer/main.go. -/
def validateKebabCase (path _method : String) (_op : OpObj) : Option String :=
  kebabViolation (pathSegments path)

/-- Embeds `validateNoTrailingSlash` from cmd/oas-indexer/main.go. -/
def validateNoTrailingSlash (path _method : String) (_op : OpObj) : Option String :=
  if path.data.length > 1 && strEnds path "/" then
    some "path should not have trailing slash"
  else none

/-- Embeds `validateOperationId` from cmd/oas-indexer/main.go. -/
def validateOperationId (_path _method : String) (op : OpObj) : Option String :=
  if opHas op "operationId" then none
  else some "operation should have operationId"

/-- Embeds `validateOperationSummary` from cmd/oas-indexer/main.go. -/
def validateOperationSummary (_path _method : String) (op : OpObj) : Option String :=
  if opHas op "summary" then none
  else some "operation should have summary"

/-- Embeds `validateGetResponse200` from cmd/oas-indexer/main.go. The Go type
assertion `operation["responses"].(map[string]interface{})` fails both when
the key is absent and when the value is not an object. -/
def validateGetResponse200 (_path method : String) (op : OpObj) : Option String :=
  if toLowerS method ≠ "get" then none
  else
    match opGet op "responses" with
    | some (.obj fields) =>
      if fields.any (fun kv => kv.1 = "200") then none
      else some "GET operation should have 200 response"
    | _ => some "GET operation should have responses defined"

/-- Scanner for `findParams`: `acc` holds the pending capture (reversed)
after an unmatched opening brace, `none` when outside a candidate match. -/
def findParamsAux : Option (List Char) → List Char → List String
  | _, [] => []
  | none, c :: rest =>
    if c = obr then findParamsAux (some []) rest else findParamsAux none rest
  | some acc, c :: rest =>
    if c = cbr then
      if acc.isEmpty then findParamsAux none rest
      else (⟨acc.reverse⟩ : String) :: findParamsAux none rest
    else findParamsAux (some (c :: acc)) rest

/-- Models `paramRegex.FindAllStringSubmatch(path, -1)` for the expression
`\{([^}]+)\}`: every leftmost non-overlapping match's capture, by a single
left-to-right scan. -/
def findParams (l : List Char) : List String := findParamsAux none l

/-- The fixed `validPatterns` list of `isValidParamName`. -/
def validParamNames : List String :=
  ["id", "userId", "accountId", "missionId", "partnerId",
   "carId", "activityId", "rewardId", "memberId"]

/-- Embeds `isValidParamName` from cmd/oas-indexer/main.go. -/
def isValidParamName (name : String) : Bool :=
  validParamNames.contains name ||
  (strEnds name "Id" && name.data.length > 2)

/-- Inner loop of `validateResourceIdParam`. -/
def paramNameViolation : List String → Option String
  | [] => none
  | p :: rest =>
    if isValidParamName p then paramNameViolation rest
    else some ("parameter " ++ quoted (obr.toString ++ p ++ cbr.toString) ++
      " should follow naming convention (consider using " ++ obr.toString ++
      "id" ++ cbr.toString ++ " for resource identifiers)")

/-- Embeds `validateResourceIdParam` from cmd/oas-indexer/main.go. -/
def validateResourceIdParam (path _method : String) (_op : OpObj) : Option String :=
  paramNameViolation (findParams path.data)

/-- The `http-methods-rest` rule object shared by both presets. -/
def httpMethodsRule : VRule :=
  ⟨"http-methods-rest", "Use standard HTTP methods (GET, POST, PUT, PATCH, DELETE)",
   validateHTTPMethods⟩

/-- The `google` preset of the `ValidationPresets` table. -/
def googlePreset : VPreset :=
  ⟨"Google API Design Guide",
   "Validation rules based on Google's API Design Guide best practices",
   [httpMethodsRule,
    ⟨"collection-names-plural", "Collection names should be plural nouns",
     validatePluralCollections⟩,
    ⟨"path-case-kebab", "Path segments should use kebab-case (lowercase with dashes)",
     validateKebabCase⟩,
    ⟨"no-trailing-slash", "Paths should not have trailing slashes",
     validateNoTrailingSlash⟩,
    ⟨"operation-id-present", "All operations should have operationId",
     validateOperationId⟩,
    ⟨"operation-summary-present", "All operations should have summary",
     validateOperationSummary⟩,
    ⟨"response-200-present", "GET operations should have 200 response",
     validateGetResponse200⟩,
    ⟨"resource-id-param", "Resource paths should use \x7bid\x7d parameter naming",
     validateResourceIdParam⟩]⟩

/-- The `restful` preset of the `ValidationPresets` table. -/
def restfulPreset : VPreset :=
  ⟨"RESTful API Standards", "Common RESTful API design standards",
   [httpMethodsRule,
    ⟨"operation-id-present", "All operations should have operationId",
     validateOperationId⟩,
    ⟨"collection-names-plural", "Collection names should be plural nouns",
     validatePluralCollections⟩,
    ⟨"no-trailing-slash", "Paths should not have trailing slashes",
     validateNoTrailingSlash⟩]⟩

/-- Embeds the `ValidationPresets` table (a Go map with keys `google`,
`restful`). -/
def validationPresets : List (String × VPreset) :=
  [("google", googlePreset), ("restful", restfulPreset)]

/-- Go map lookup `ValidationPresets[name]` with its `exists` flag. -/
def lookupPreset (name : String) : Option VPreset :=
  (List.find? (fun kv => kv.1 = name) validationPresets).map (fun kv => kv.2)

/-- Terminal outcome of `validatePaths`: the distinct error values it can
return (the Go error messages are kept by `vErrMessage`). `none` outcome
means a fully successful run. -/
inductive VErr where
  | unknownPreset (name : String)
  | stoppedEarly
  | completedWithViolations
deriving DecidableEq

/-- The Go error message carried by each `VErr`. -/
def vErrMessage : VErr → String
  | .unknownPreset n => "unknown validation preset: " ++ n
  | .stoppedEarly => "validation failed on first error"
  | .completedWithViolations => "validation failed"

/-- Inner rule loop of `validatePaths` for one (path, method, operation)
triple. Returns the accumulated results and whether the stop-on-error early
return fired. -/
def runRules (apiPath method : String) (op : OpObj) (stop : Bool) :
    List VRule → List VResult → List VResult × Bool
  | [], acc => (acc, false)
  | r :: rs, acc =>
    match r.validate apiPath method op with
    | none => runRules apiPath method op stop rs acc
    | some msg =>
      let acc := acc ++ [⟨apiPath, toUpperS method, r.name, msg, "error"⟩]
      if stop then (acc, true)
      else runRules apiPath method op stop rs acc

/-- Method loop of `validatePaths` over one parsed fragment: keys whose value
is not an object are skipped. Go iterates the parsed map in unspecified
order; the model fixes the given list order. -/
def runMethods (rules : List VRule) (stop : Bool) (apiPath : String) :
    List (String × YVal) → List VResult → List VResult × Bool
  | [], acc => (acc, false)
  | (method, v) :: rest, acc =>
    match v with
    | .other => runMethods rules stop apiPath rest acc
    | .obj op =>
      match runRules apiPath method op stop rules acc with
      | (acc2, true) => (acc2, true)
      | (acc2, false) => runMethods rules stop apiPath rest acc2

/-- Fragment loop of `validatePaths`. Each fragment is its file path together
with its parsed YAML content (parsing by the external YAML library is not
modelled; a fragment that fails to read or parse aborts the Go run with a
distinct I/O error before any of the behavior stated here). -/
def runFragments (rules : List VRule) (stop : Bool) (pathsDir : String) :
    List (String × List (String × YVal)) → List VResult → List VResult × Bool
  | [], acc => (acc, false)
  | (file, spec) :: rest, acc =>
    let apiPath := buildPathKey pathsDir file
    if apiPath = "" then runFragments rules stop pathsDir rest acc
    else
      match runMethods rules stop apiPath spec acc with
      | (acc2, true) => (acc2, true)
      | (acc2, false) => runFragments rules stop pathsDir rest acc2

/-- Embeds `validatePaths` from cmd/oas-indexer/main.go: the accumulated
`ValidationConfig.Results` plus the returned error. An unknown preset fails
before any fragment is examined; a stop-on-error run returns
`stoppedEarly` at the first violation; a completed run with violations
returns `completedWithViolations`. -/
def validatePaths (presetName : String) (stop : Bool) (pathsDir : String)
    (frags : List (String × List (String × YVal))) : List VResult × Option VErr :=
  match lookupPreset presetName with
  | none => ([], some (.unknownPreset presetName))
  | some preset =>
    match runFragments preset.rules stop pathsDir frags [] with
    | (res, true) => (res, some .stoppedEarly)
    | (res, false) =>
      if res.isEmpty then (res, none)
      else (res, some .completedWithViolations)

/-! Specification-side definitions used to compare code behavior with the
stated contracts. -/

/-- Declarative characterization of the files the walk of `listYAMLFiles`
returns: a target path is reachable from an entry rooted at `path` when it is
a regular file whose lower-cased name ends in `.yaml`, reached through
directories none of which (the root excepted) has a dot-prefixed name. -/
inductive Reaches : Bool → String → FSEntry → String → Prop where
  | file (isRoot : Bool) (path name : String) :
      strEnds (toLowerS name) ".yaml" = true →
      Reaches isRoot path (.file name) path
  | dir (isRoot : Bool) (path name : String) (es : List FSEntry) (e : FSEntry)
      (target : String) :
      (strStarts name "." = false ∨ isRoot = true) → e ∈ es →
      Reaches false (path ++ "/" ++ entryName e) e target →
      Reaches isRoot path (.dir name es) target

mutual
/-- The Fragment Store walk exactly as the claim states its contract
(for comparison with `walkEntry`): extension `.yaml` or `.yml`
case-insensitively, and every file or directory whose name starts with `.`
excluded. -/
def specWalkEntry (isRoot : Bool) (path : String) : FSEntry → List String
  | .file n =>
    if strStarts n "." then []
    else if strEnds (toLowerS n) ".yaml" || strEnds (toLowerS n) ".yml" then [path]
    else []
  | .dir n es =>
    if strStarts n "." && !isRoot then []
    else specWalkList path es

/-- Entry-list walk of `specWalkEntry`. -/
def specWalkList (path : String) : List FSEntry → List String
  | [] => []
  | e :: es => specWalkEntry false (path ++ "/" ++ entryName e) e ++ specWalkList path es
end

/-- The Fragment Store contract exactly as the claim states it
(for comparison with `listYAMLFiles`). -/
def specListYAMLFiles (root : String) : Option FSEntry → List String
  | none => []
  | some (.file _) => []
  | some (.dir n es) => specWalkEntry true root (.dir n es)

/-- The Name Resolver exactly as the claim states it (for comparison with
the code's recursive scan): only files directly in the scanned directory
contribute entries; per-file entries are those of `buildNameMap`. -/
def specNameMapNonRecursive (root : String) : Option FSEntry → (String → String)
  | some (.dir _ es) =>
    buildNameMap (es.filterMap (fun c =>
      match c with
      | .file n => if strEnds (toLowerS n) ".yaml" then some (root ++ "/" ++ n) else none
      | .dir _ _ => none))
  | _ => fun _ => ""

/-- The two map keys contributed by one file in `buildNameMap`. -/
def nameKeys (f : String) : List String :=
  [toLowerS (trimSuffixS (baseName f) ".yaml"), toLowerS (baseName f)]

/-- Two files whose `buildNameMap` keys do not collide. -/
def KeysDisjoint (a b : String) : Prop :=
  ∀ k ∈ nameKeys a, k ∉ nameKeys b

instance (a b : String) : Decidable (KeysDisjoint a b) := by
  unfold KeysDisjoint
  infer_instance

/-- A `$ref:` line whose (quote-stripped) value is already a canonical
internal pointer, exactly as `rewriteRefs` computes it. -/
def refLineCanonical (ln : String) : Bool :=
  match strIndexOf ln "$ref:" with
  | none => false
  | some idx =>
    let rest := trimSpaceS (dropS ln (idx + 5))
    rest ≠ "" && strStarts (stripQuotes rest) "#/components/"

/-- Characters the Reference Rewriter claims are rewritten in pseudo-form
names: plain name characters (letters, digits, dash, underscore). -/
def plainNameCh (c : Char) : Bool :=
  c.isAlpha || c.isDigit || c = '-' || c = '_'

/-! Shared helper lemmas. -/

theorem mk_data (s : String) : String.mk s.data = s := rfl

theorem strExt {s t : String} (h : s.data = t.data) : s = t := by
  cases s; cases t; exact congrArg String.mk h

theorem data_append (s t : String) : (s ++ t).data = s.data ++ t.data := by
  cases s; cases t; rfl

theorem isPre_self_append (p t : List Char) : isPre p (p ++ t) = true := by
  induction p with
  | nil => rfl
  | cons c cs ih => simp [isPre, ih]

theorem filepathRel_under (base r : String) :
    filepathRel base (base ++ "/" ++ r) = some r := by
  unfold filepathRel
  have hne : base ≠ base ++ "/" ++ r := by
    intro h
    have h2 := congrArg (fun s => s.data.length) h
    simp [data_append] at h2
  rw [if_neg hne]
  have hpre : isPre (base ++ "/").data (base ++ "/" ++ r).data = true := by
    rw [data_append (base ++ "/") r]
    exact isPre_self_append _ _
  rw [if_pos hpre]
  congr 1
  apply strExt
  show (base ++ "/" ++ r).data.drop (base.data.length + 1) = r.data
  rw [data_append (base ++ "/") r, data_append base "/"]
  have h1 : (base.data ++ "/".data).length = base.data.length + 1 := by simp
  rw [List.append_assoc]
  rw [show base.data.length + 1 = (base.data ++ "/".data).length from h1.symm]
  rw [← List.append_assoc]
  exact List.drop_left _ _

theorem splitCharL_no_sep (c : Char) (l : List Char) (h : c ∉ l) :
    splitCharL c l = [l] := by
  induction l with
  | nil => rfl
  | cons x xs ih =>
    have hx : ¬ x = c := fun hx => h (by simp [hx])
    have hxs : c ∉ xs := fun hm => h (by simp [hm])
    simp only [splitCharL, if_neg hx, ih hxs]

theorem splitCharL_append (c : Char) (l rest : List Char) (h : c ∉ l) :
    splitCharL c (l ++ c :: rest) = l :: splitCharL c rest := by
  induction l with
  | nil => simp [splitCharL]
  | cons x xs ih =>
    have hx : ¬ x = c := fun hx => h (by simp [hx])
    have hxs : c ∉ xs := fun hm => h (by simp [hm])
    show splitCharL c (x :: (xs ++ c :: rest)) = (x :: xs) :: splitCharL c rest
    simp only [splitCharL, if_neg hx]
    rw [ih hxs]

theorem splitOnCh_join (segs : List String) (hne : segs ≠ [])
    (h : ∀ s ∈ segs, '/' ∉ s.data) :
    splitOnCh '/' (joinSep "/" segs) = segs := by
  induction segs with
  | nil => exact absurd rfl hne
  | cons x xs ih =>
    cases xs with
    | nil =>
      simp only [joinSep, splitOnCh]
      rw [splitCharL_no_sep '/' x.data (h x (by simp))]
      simp [mk_data]
    | cons y ys =>
      have hx : '/' ∉ x.data := h x (by simp)
      have hrec : ∀ s ∈ y :: ys, '/' ∉ s.data := fun s hs => h s (by simp [hs])
      simp only [joinSep, splitOnCh]
      have hd : (x ++ "/" ++ joinSep "/" (y :: ys)).data
          = x.data ++ '/' :: (joinSep "/" (y :: ys)).data := by
        rw [data_append (x ++ "/"), data_append x, List.append_assoc]
        rfl
      rw [hd, splitCharL_append '/' x.data _ hx]
      have ih2 := ih (by simp) hrec
      simp only [joinSep, splitOnCh] at ih2
      simp [mk_data, ih2]

theorem joinSep_cons_ne_empty (x : String) (xs : List String) (hx : x.data ≠ []) :
    joinSep "/" (x :: xs) ≠ "" := by
  cases xs with
  | nil =>
    intro hc
    exact hx (congrArg String.data hc)
  | cons y ys =>
    intro hc
    have h2 := congrArg (fun s => s.data.length) hc
    simp [joinSep, data_append] at h2

theorem joinSep_append_single (xs : List String) (t : String) (h : xs ≠ []) :
    joinSep "/" (xs ++ [t]) = joinSep "/" xs ++ "/" ++ t := by
  induction xs with
  | nil => exact absurd rfl h
  | cons x xs ih =>
    cases xs with
    | nil => simp [joinSep]
    | cons y ys =>
      have ih2 := ih (by simp)
      simp only [List.cons_append, List.append_eq, joinSep] at ih2 ⊢
      rw [ih2]
      apply strExt
      simp [data_append, List.append_assoc]

/-- General form of the Path-Key Deriver on a fragment under the paths root:
intermediate directory segments pass through joined with `/`, the filename
drops its `.yaml` extension and is camel-cased. -/
theorem buildPathKey_under (pathsDir file : String) (mids : List String)
    (hm : ∀ s ∈ mids, s.data ≠ [] ∧ '/' ∉ s.data) (hf : '/' ∉ file.data) :
    buildPathKey pathsDir (pathsDir ++ "/" ++ joinSep "/" (mids ++ [file])) =
      "/" ++ joinSep "/" (mids ++ [kebabToCamel (trimSuffixS file ".yaml")]) := by
  have hsegs : ∀ s ∈ mids ++ [file], '/' ∉ s.data := by
    intro s hs
    rcases List.mem_append.mp hs with h1 | h1
    · exact (hm s h1).2
    · simp at h1
      exact h1 ▸ hf
  simp only [buildPathKey, filepathRel_under]
  rw [splitOnCh_join (mids ++ [file]) (by simp) hsegs]
  rw [List.reverse_append]
  simp only [List.reverse_singleton, List.singleton_append, List.reverse_reverse]
  cases mids with
  | nil => simp [joinSep]
  | cons v rest =>
    cases rest with
    | nil =>
      simp only [List.cons_append, List.nil_append, joinSep]
      apply strExt
      simp [data_append, List.append_assoc]
    | cons r rs =>
      have hrne : joinSep "/" (r :: rs) ≠ "" :=
        joinSep_cons_ne_empty r rs (hm r (by simp)).1
      simp only [if_neg hrne]
      have h1 := joinSep_append_single (v :: r :: rs)
        (kebabToCamel (trimSuffixS file ".yaml")) (by simp)
      simp only [List.cons_append] at h1 ⊢
      rw [h1]
      apply strExt
      simp only [joinSep]
      simp [data_append, List.append_assoc]

/-- C1: the Path-Key Deriver maps a fragment's location relative to the paths
root as the spec states: intermediate directory segments pass through
unchanged joined with `/`, the filename's `.yaml` extension is stripped and
the remainder camel-cased; `paths/v1/foo/list-items.yaml` yields
`/v1/foo/listItems`, `paths/v1/health-check.yaml` yields `/v1/healthCheck`,
and a fragment directly under the paths root yields `/<operationSegment>`
with no leading version. -/
theorem pathKeyDeriver_correct :
    (∀ (pathsDir file : String) (mids : List String),
       (∀ s ∈ mids, s.data ≠ [] ∧ '/' ∉ s.data) → '/' ∉ file.data →
       buildPathKey pathsDir (pathsDir ++ "/" ++ joinSep "/" (mids ++ [file])) =
         "/" ++ joinSep "/" (mids ++ [kebabToCamel (trimSuffixS file ".yaml")]))
    ∧ buildPathKey "/repo/paths" "/repo/paths/v1/foo/list-items.yaml" = "/v1/foo/listItems"
    ∧ buildPathKey "/repo/paths" "/repo/paths/v1/health-check.yaml" = "/v1/healthCheck"
    ∧ buildPathKey "/repo/paths" "/repo/paths/ops.yaml" = "/ops" :=
  ⟨buildPathKey_under, by decide, by decide, by decide⟩

/-- Witness for the general clause of `pathKeyDeriver_correct` at a concrete
fragment. -/
theorem pathKeyDeriver_witness :
    buildPathKey "/p" ("/p" ++ "/" ++ joinSep "/" (["v1", "foo"] ++ ["list-items.yaml"])) =
      "/" ++ joinSep "/" (["v1", "foo"] ++ [kebabToCamel (trimSuffixS "list-items.yaml" ".yaml")]) :=
  pathKeyDeriver_correct.1 "/p" "list-items.yaml" ["v1", "foo"] (by decide) (by decide)

mutual
/-- Membership in the walk of `listYAMLFiles` coincides with `Reaches`. -/
theorem mem_walkEntry {isRoot : Bool} {path : String} {e : FSEntry} {target : String} :
    target ∈ walkEntry isRoot path e ↔ Reaches isRoot path e target := by
  cases e with
  | file n =>
    simp only [walkEntry]
    by_cases h : strEnds (toLowerS n) ".yaml" = true
    · simp only [if_pos h, List.mem_singleton]
      constructor
      · intro ht; subst ht; exact Reaches.file _ _ _ h
      · intro hr; cases hr; rfl
    · simp only [if_neg h, List.not_mem_nil, false_iff]
      intro hr
      cases hr with
      | file _ _ _ hy => exact h hy
  | dir n es =>
    simp only [walkEntry]
    by_cases h : (strStarts n "." && !isRoot) = true
    · simp only [if_pos h, List.not_mem_nil, false_iff]
      intro hr
      cases hr with
      | dir _ _ _ _ _ _ hcond _ _ =>
        rcases hcond with h1 | h1
        · rw [h1] at h; simp at h
        · rw [h1] at h; simp at h
    · simp only [if_neg h]
      rw [mem_walkList]
      constructor
      · rintro ⟨e, he, hr⟩
        have hcond : strStarts n "." = false ∨ isRoot = true := by
          cases hs : strStarts n "." with
          | false => exact Or.inl rfl
          | true =>
            cases hir : isRoot with
            | true => exact Or.inr rfl
            | false => exact absurd (by simp [hs, hir]) h
        exact Reaches.dir _ _ _ _ _ _ hcond he hr
      · intro hr
        cases hr with
        | dir _ _ _ _ e _ _ he hrec => exact ⟨e, he, hrec⟩

/-- List form of `mem_walkEntry`. -/
theorem mem_walkList {path : String} {es : List FSEntry} {target : String} :
    target ∈ walkList path es ↔
      ∃ e ∈ es, Reaches false (path ++ "/" ++ entryName e) e target := by
  cases es with
  | nil => simp [walkList]
  | cons e es =>
    simp only [walkList, List.mem_append]
    rw [mem_walkEntry, mem_walkList]
    constructor
    · rintro (h | ⟨f, hf, hr⟩)
      · exact ⟨e, by simp, h⟩
      · exact ⟨f, by simp [hf], hr⟩
    · rintro ⟨f, hf, hr⟩
      rcases List.mem_cons.mp hf with rfl | hf2
      · exact Or.inl hr
      · exact Or.inr ⟨f, hf2, hr⟩
end

/-- C3 counterexample: the claim's contract (extension `.yaml` or `.yml`
case-insensitively, every dot-prefixed file excluded) disagrees with
`listYAMLFiles` on a directory holding `a.yml` (claimed returned, actually
dropped) and `.h.yaml` (claimed excluded, actually returned). -/
theorem fragmentStore_cex :
    ("/in/a.yml" ∈ specListYAMLFiles "/in"
        (some (.dir "in" [.file "a.yml", .file ".h.yaml"])) ∧
     "/in/a.yml" ∉ listYAMLFiles "/in"
        (some (.dir "in" [.file "a.yml", .file ".h.yaml"]))) ∧
    ("/in/.h.yaml" ∈ listYAMLFiles "/in"
        (some (.dir "in" [.file "a.yml", .file ".h.yaml"])) ∧
     "/in/.h.yaml" ∉ specListYAMLFiles "/in"
        (some (.dir "in" [.file "a.yml", .file ".h.yaml"]))) := by
  decide

/-- C3 (amended): `listYAMLFiles` returns exactly the regular files whose
lower-cased name ends in `.yaml` (`.yml` is not accepted), found by the
depth-first walk with dot-prefixed directories (other than the root) pruned
entirely — dot-prefixed regular files are still returned; a nonexistent or
non-directory root yields an empty result rather than an error. -/
theorem fragmentStore_amended :
    (∀ (root n : String) (es : List FSEntry) (target : String),
       target ∈ listYAMLFiles root (some (.dir n es)) ↔
         Reaches true root (.dir n es) target)
    ∧ (∀ root, listYAMLFiles root none = [])
    ∧ (∀ root n, listYAMLFiles root (some (.file n)) = []) :=
  ⟨fun _ _ _ _ => mem_walkEntry, fun _ => rfl, fun _ _ => rfl⟩

/-- Witness for `fragmentStore_amended` at a concrete nested tree. -/
theorem fragmentStore_witness :
    Reaches true "/x" (.dir "x" [.dir "sub" [.file "foo.yaml"]]) "/x/sub/foo.yaml" :=
  (fragmentStore_amended.1 "/x" "x" [.dir "sub" [.file "foo.yaml"]] "/x/sub/foo.yaml").mp
    (by decide)

theorem nameMapStep_apply (m : String → String) (f : String) (k : String) :
    nameMapStep m f k =
      if k ∈ nameKeys f then pascalCase (trimSuffixS (baseName f) ".yaml") else m k := by
  simp only [nameMapStep, insertKey, nameKeys, List.mem_cons, List.not_mem_nil, or_false,
    List.mem_singleton]
  by_cases h2 : k = toLowerS (baseName f) <;>
    by_cases h1 : k = toLowerS (trimSuffixS (baseName f) ".yaml") <;>
      simp [h1, h2]

theorem foldl_nameMapStep_unchanged (files : List String) (m : String → String)
    (k : String) (h : ∀ f ∈ files, k ∉ nameKeys f) :
    files.foldl nameMapStep m k = m k := by
  induction files generalizing m with
  | nil => rfl
  | cons f fs ih =>
    simp only [List.foldl_cons]
    rw [ih _ (fun g hg => h g (by simp [hg]))]
    rw [nameMapStep_apply, if_neg (h f (by simp))]

theorem foldl_nameMapStep_mem (files : List String) (m : String → String)
    (hd : files.Pairwise KeysDisjoint) (f : String) (hf : f ∈ files)
    (k : String) (hk : k ∈ nameKeys f) :
    files.foldl nameMapStep m k = pascalCase (trimSuffixS (baseName f) ".yaml") := by
  induction files generalizing m with
  | nil => cases hf
  | cons g gs ih =>
    simp only [List.foldl_cons]
    rcases List.mem_cons.mp hf with rfl | hf2
    · rw [foldl_nameMapStep_unchanged gs _ k
        (fun e he => (List.pairwise_cons.mp hd).1 e he k hk)]
      rw [nameMapStep_apply, if_pos hk]
    · exact ih _ (List.pairwise_cons.mp hd).2 hf2

/-- C4 counterexample: on a schemas directory whose only fragment sits in a
nested subdirectory, the code's name map (built over the recursive
`listYAMLFiles` walk) contains an entry for it, while the claim's
non-recursive scan contributes nothing. -/
theorem nameResolver_cex :
    buildNameMap (listYAMLFiles "/s"
        (some (.dir "schemas" [.dir "sub" [.file "foo.yaml"]]))) "foo" = "Foo" ∧
    specNameMapNonRecursive "/s"
        (some (.dir "schemas" [.dir "sub" [.file "foo.yaml"]])) "foo" = "" := by
  constructor <;> rfl

/-- C4 (amended): the Name Resolver scans its directory recursively via the
Fragment Store; every discovered file, at any depth, contributes entries
mapping its lower-cased basename with and without the `.yaml` extension to
the PascalCase Component Name (stated here for collision-free file sets;
colliding keys are overwritten in traversal order, last write wins). -/
theorem nameResolver_amended :
    (∀ (files : List String), files.Pairwise KeysDisjoint → ∀ f ∈ files,
       buildNameMap files (toLowerS (trimSuffixS (baseName f) ".yaml")) =
         pascalCase (trimSuffixS (baseName f) ".yaml") ∧
       buildNameMap files (toLowerS (baseName f)) =
         pascalCase (trimSuffixS (baseName f) ".yaml"))
    ∧ buildNameMap (listYAMLFiles "/s"
        (some (.dir "schemas" [.dir "sub" [.file "foo.yaml"]]))) "foo.yaml" = "Foo" := by
  refine ⟨fun files hd f hf => ⟨?_, ?_⟩, by rfl⟩
  · exact foldl_nameMapStep_mem files _ hd f hf _ (by simp [nameKeys])
  · exact foldl_nameMapStep_mem files _ hd f hf _ (by simp [nameKeys])

/-- Witness for `nameResolver_amended`: a nested file's entry is present. -/
theorem nameResolver_witness :
    buildNameMap ["/s/sub/foo.yaml", "/s/bar.yaml"] "foo" = "Foo" := by
  have h := (nameResolver_amended.1 ["/s/sub/foo.yaml", "/s/bar.yaml"] (by decide)
    "/s/sub/foo.yaml" (by decide)).1
  simpa using h

theorem sortStrings_eq_of_perm {l₁ l₂ : List String} (h : l₁.Perm l₂) :
    sortStrings l₁ = sortStrings l₂ := by
  exact List.eq_of_perm_of_sorted
    (((List.perm_insertionSort _ l₁).trans h).trans (List.perm_insertionSort _ l₂).symm)
    (List.sorted_insertionSort _ l₁) (List.sorted_insertionSort _ l₂)

theorem keysDisjoint_symm : Symmetric KeysDisjoint := by
  intro a b h k hkb hka
  exact h k hka hkb

theorem nameMapStep_comm {a b : String} (hab : a = b ∨ KeysDisjoint a b)
    (m : String → String) :
    nameMapStep (nameMapStep m a) b = nameMapStep (nameMapStep m b) a := by
  rcases hab with rfl | hd
  · rfl
  · funext x
    rw [nameMapStep_apply, nameMapStep_apply, nameMapStep_apply, nameMapStep_apply]
    by_cases hxa : x ∈ nameKeys a <;> by_cases hxb : x ∈ nameKeys b
    · exact absurd hxb (hd x hxa)
    · simp [hxa, hxb]
    · simp [hxa, hxb]
    · simp [hxa, hxb]

theorem buildNameMap_eq_of_perm {l₁ l₂ : List String} (h : l₁.Perm l₂)
    (hd : l₁.Pairwise KeysDisjoint) : buildNameMap l₁ = buildNameMap l₂ := by
  unfold buildNameMap
  refine h.foldl_eq' (fun x hx y hy z => ?_) _
  by_cases hxy : x = y
  · subst hxy; rfl
  · exact nameMapStep_comm
      (Or.inr (List.Pairwise.forall keysDisjoint_symm hd hx hy hxy)) z

/-- C2 counterexample: in inlined mode, two discovered schema lists that are
permutations of each other give byte-different output, because the name map
is built in traversal order (last write wins) and `fOO.yaml` / `foo.yaml`
collide on the key `foo` with different PascalCase names. -/
theorem composerOrder_cex :
    (["/in/components/schemas/fOO.yaml", "/in/components/schemas/foo.yaml"] :
        List String).Perm
      ["/in/components/schemas/foo.yaml", "/in/components/schemas/fOO.yaml"] ∧
    writeRootJoinedYAML "/in/paths" (fun _ => "$ref: schemas/foo.yaml")
        ["/in/paths/v1/users.yaml"]
        ["/in/components/schemas/fOO.yaml", "/in/components/schemas/foo.yaml"] [] ≠
      writeRootJoinedYAML "/in/paths" (fun _ => "$ref: schemas/foo.yaml")
        ["/in/paths/v1/users.yaml"]
        ["/in/components/schemas/foo.yaml", "/in/components/schemas/fOO.yaml"] [] := by
  constructor
  · exact List.Perm.swap _ _ _
  · decide

/-- C2 (amended): reference-mode output is byte-identical under any
permutation of the discovered fragment lists; inlined-mode output is
byte-identical provided additionally that no two discovered schema files and
no two parameter files collide on a name-map key (lower-cased basename with
or without extension) — without that proviso the traversal-ordered name map
can differ, as `composerOrder_cex` shows. -/
theorem composerOrder_amended (pathsDir rootDir : String) (content : String → String)
    (p₁ p₂ s₁ s₂ q₁ q₂ : List String)
    (hp : p₁.Perm p₂) (hs : s₁.Perm s₂) (hq : q₁.Perm q₂) :
    writeRootYAML pathsDir rootDir p₁ s₁ q₁ = writeRootYAML pathsDir rootDir p₂ s₂ q₂ ∧
    (s₁.Pairwise KeysDisjoint → q₁.Pairwise KeysDisjoint →
      writeRootJoinedYAML pathsDir content p₁ s₁ q₁ =
        writeRootJoinedYAML pathsDir content p₂ s₂ q₂) := by
  constructor
  · simp only [writeRootYAML]
    rw [sortStrings_eq_of_perm hp, sortStrings_eq_of_perm hs, sortStrings_eq_of_perm hq]
  · intro hds hdq
    simp only [writeRootJoinedYAML]
    rw [sortStrings_eq_of_perm hp, sortStrings_eq_of_perm hs, sortStrings_eq_of_perm hq,
      buildNameMap_eq_of_perm hs hds, buildNameMap_eq_of_perm hq hdq]

/-- Witness for `composerOrder_amended` at concrete permuted lists. -/
theorem composerOrder_witness :
    writeRootYAML "/in/paths" "/in" ["/in/paths/v1/b.yaml", "/in/paths/v1/a.yaml"]
        ["/in/components/schemas/s.yaml"] [] =
      writeRootYAML "/in/paths" "/in" ["/in/paths/v1/a.yaml", "/in/paths/v1/b.yaml"]
        ["/in/components/schemas/s.yaml"] [] ∧
    writeRootJoinedYAML "/in/paths" (fun _ => "x: 1")
        ["/in/paths/v1/b.yaml", "/in/paths/v1/a.yaml"]
        ["/in/components/schemas/s.yaml"] [] =
      writeRootJoinedYAML "/in/paths" (fun _ => "x: 1")
        ["/in/paths/v1/a.yaml", "/in/paths/v1/b.yaml"]
        ["/in/components/schemas/s.yaml"] [] := by
  have h := composerOrder_amended "/in/paths" "/in" (fun _ => "x: 1")
    ["/in/paths/v1/b.yaml", "/in/paths/v1/a.yaml"]
    ["/in/paths/v1/a.yaml", "/in/paths/v1/b.yaml"]
    ["/in/components/schemas/s.yaml"] ["/in/components/schemas/s.yaml"] [] []
    (List.Perm.swap _ _ _) (List.Perm.refl _) (List.Perm.refl _)
  exact ⟨h.1, h.2 (by decide) (by decide)⟩

theorem plain_not_space {c : Char} (h : plainNameCh c = true) : isSpaceCh c = false := by
  by_contra hs
  have hs2 : isSpaceCh c = true := by
    cases h2 : isSpaceCh c with
    | true => rfl
    | false => exact absurd h2 hs
  simp only [isSpaceCh, Bool.or_eq_true, decide_eq_true_eq] at hs2
  rcases hs2 with (((((rfl | rfl) | rfl) | rfl) | rfl) | rfl) <;>
    simp [plainNameCh, Char.isAlpha, Char.isUpper, Char.isLower, Char.isDigit] at h

theorem dropWhile_isSpace_head {c : Char} (l : List Char) (h : isSpaceCh c = false) :
    (c :: l).dropWhile isSpaceCh = c :: l := by
  simp [List.dropWhile_cons, h]

theorem trimSpaceS_one_space (t : String)
    (hhead : ∃ c cs, t.data = c :: cs ∧ isSpaceCh c = false)
    (hlast : ∃ d ds, t.data.reverse = d :: ds ∧ isSpaceCh d = false) :
    trimSpaceS (" " ++ t) = t ∧ trimSpaceS t = t := by
  obtain ⟨c, cs, hc, hcs⟩ := hhead
  obtain ⟨d, ds, hd, hds⟩ := hlast
  constructor
  · apply strExt
    show (((" " ++ t).data.dropWhile isSpaceCh).reverse.dropWhile isSpaceCh).reverse = t.data
    have h1 : (" " ++ t).data = ' ' :: t.data := by rw [data_append]; rfl
    rw [h1, List.dropWhile_cons, if_pos (by decide)]
    rw [hc, dropWhile_isSpace_head cs hcs, ← hc, hd, dropWhile_isSpace_head ds hds, ← hd,
      List.reverse_reverse]
  · apply strExt
    show ((t.data.dropWhile isSpaceCh).reverse.dropWhile isSpaceCh).reverse = t.data
    rw [hc, dropWhile_isSpace_head cs hcs, ← hc, hd, dropWhile_isSpace_head ds hds, ← hd,
      List.reverse_reverse]

theorem stripQuotes_no_quote (t : String) (htrim : trimSpaceS t = t)
    (hhead : ∃ c cs, t.data = c :: cs ∧ c ≠ dq ∧ c ≠ sq) :
    stripQuotes t = t := by
  obtain ⟨c, cs, hc, h1, h2⟩ := hhead
  unfold stripQuotes
  rw [htrim]
  dsimp only
  rw [hc]
  cases hrev : cs.reverse with
  | nil => simp [hrev]
  | cons d mid => simp [hrev, h1, h2, ← hc]

theorem idxOfL_spaces (pat rest ind : List Char)
    (hpre : isPre pat rest = true)
    (hpat : ∃ q qs, pat = q :: qs ∧ q ≠ ' ')
    (hind : ∀ c ∈ ind, c = ' ') :
    idxOfL pat (ind ++ rest) = some ind.length := by
  obtain ⟨q, qs, hq, hqs⟩ := hpat
  induction ind with
  | nil =>
    cases rest with
    | nil => rw [hq] at hpre; simp [isPre] at hpre
    | cons r rs => simp [idxOfL, hpre]
  | cons i is ih =>
    have hi : i = ' ' := hind i (by simp)
    have his : ∀ c ∈ is, c = ' ' := fun c hc => hind c (by simp [hc])
    simp only [List.cons_append, idxOfL, List.append_eq]
    rw [if_neg ?_]
    · rw [ih his]; rfl
    · rw [hq, hi]
      simp [isPre, hqs]

theorem rewriteLine_pseudo_schema (sm pm : String → String) (ind name : String)
    (hind : ∀ c ∈ ind.data, c = ' ') (hne : name.data ≠ [])
    (hplain : ∀ c ∈ name.data, plainNameCh c = true) :
    rewriteLine sm pm (ind ++ "$ref: schema:" ++ name) =
      ind ++ "$ref: #/components/schemas/" ++ pascalCase name := by
  have hlit : ("$ref: schema:" : String).data
      = ("$ref:" : String).data ++ (" schema:" : String).data := by decide
  have hdata : (ind ++ "$ref: schema:" ++ name).data
      = ind.data ++ (("$ref:" : String).data ++ ((" schema:" : String).data ++ name.data)) := by
    rw [data_append, data_append, hlit, List.append_assoc, List.append_assoc]
  have hrev : ∃ d ds, name.data.reverse = d :: ds ∧ isSpaceCh d = false := by
    cases hr : name.data.reverse with
    | nil => exact absurd (List.reverse_eq_nil_iff.mp hr) hne
    | cons d ds =>
      refine ⟨d, ds, rfl, plain_not_space (hplain d ?_)⟩
      exact List.mem_reverse.mp (by rw [hr]; simp)
  have hPdata : ("schema:" ++ name).data
      = 's' :: (("chema:" : String).data ++ name.data) := by
    rw [data_append, show ("schema:" : String).data = 's' :: ("chema:" : String).data from by decide]
    rfl
  have hPrev : ∃ d ds, ("schema:" ++ name).data.reverse = d :: ds ∧ isSpaceCh d = false := by
    obtain ⟨d, ds, hd, hds⟩ := hrev
    refine ⟨d, ds ++ ("schema:" : String).data.reverse, ?_, hds⟩
    rw [data_append, List.reverse_append, hd, List.cons_append]
  have hidx : strIndexOf (ind ++ "$ref: schema:" ++ name) "$ref:" = some ind.data.length := by
    unfold strIndexOf
    rw [hdata]
    exact idxOfL_spaces _ _ _ (isPre_self_append _ _)
      ⟨'$', ("ref:" : String).data, by decide, by decide⟩ hind
  have hleft : takeS (ind ++ "$ref: schema:" ++ name) ind.data.length = ind := by
    apply strExt
    show (ind ++ "$ref: schema:" ++ name).data.take ind.data.length = ind.data
    rw [hdata]
    exact List.take_left _ _
  have hdrop : dropS (ind ++ "$ref: schema:" ++ name) (ind.data.length + 5)
      = " schema:" ++ name := by
    apply strExt
    show (ind ++ "$ref: schema:" ++ name).data.drop (ind.data.length + 5)
      = (" schema:" ++ name).data
    rw [hdata, data_append, ← List.append_assoc]
    have h5 : (ind.data ++ ("$ref:" : String).data).length = ind.data.length + 5 := by simp
    rw [← h5]
    exact List.drop_left _ _
  have hsp : (" schema:" ++ name) = " " ++ ("schema:" ++ name) := by
    apply strExt
    rw [data_append, data_append, data_append]
    rw [show (" schema:" : String).data = (" " : String).data ++ ("schema:" : String).data
      from by decide]
    rw [List.append_assoc]
  have htrims := trimSpaceS_one_space ("schema:" ++ name)
    ⟨'s', _, hPdata, by decide⟩ hPrev
  have hrest : trimSpaceS (dropS (ind ++ "$ref: schema:" ++ name) (ind.data.length + 5))
      = "schema:" ++ name := by
    rw [hdrop, hsp]
    exact htrims.1
  have hrne : ¬ (("schema:" ++ name) = "") := by
    intro h
    have h2 := congrArg String.data h
    rw [hPdata] at h2
    simp at h2
  have hsqv : stripQuotes ("schema:" ++ name) = "schema:" ++ name :=
    stripQuotes_no_quote _ htrims.2 ⟨'s', _, hPdata, by decide, by decide⟩
  have hcanon : strStarts ("schema:" ++ name) "#/components/" = false := by
    unfold strStarts
    rw [hPdata, show ("#/components/" : String).data
      = '#' :: ("/components/" : String).data from by decide]
    simp [isPre]
  have hlow : strStarts (toLowerS ("schema:" ++ name)) "schema:" = true := by
    unfold strStarts toLowerS
    show isPre ("schema:" : String).data (("schema:" ++ name).data.map Char.toLower) = true
    rw [data_append, List.map_append]
    rw [show (("schema:" : String).data.map Char.toLower) = ("schema:" : String).data
      from by decide]
    exact isPre_self_append _ _
  have hdrop7 : dropS ("schema:" ++ name) 7 = name := by
    apply strExt
    show ("schema:" ++ name).data.drop 7 = name.data
    rw [data_append, show (7 : Nat) = ("schema:" : String).data.length from by decide]
    exact List.drop_left _ _
  have htrimname : trimSpaceS name = name := by
    obtain ⟨c, cs, hc⟩ : ∃ c cs, name.data = c :: cs := by
      cases hn : name.data with
      | nil => exact absurd hn hne
      | cons c cs => exact ⟨c, cs, rfl⟩
    exact (trimSpaceS_one_space name
      ⟨c, cs, hc, plain_not_space (hplain c (by rw [hc]; simp))⟩ hrev).2
  simp only [rewriteLine, hidx, hleft, hrest, hrne, hsqv, hcanon, hlow, hdrop7, htrimname,
    if_false, Bool.false_eq_true, if_neg, not_false_iff, if_true]

theorem rewriteLine_pseudo_param (sm pm : String → String) (ind name : String)
    (hind : ∀ c ∈ ind.data, c = ' ') (hne : name.data ≠ [])
    (hplain : ∀ c ∈ name.data, plainNameCh c = true) :
    rewriteLine sm pm (ind ++ "$ref: param:" ++ name) =
      ind ++ "$ref: #/components/parameters/" ++ pascalCase name := by
  have hlit : ("$ref: param:" : String).data
      = ("$ref:" : String).data ++ (" param:" : String).data := by decide
  have hdata : (ind ++ "$ref: param:" ++ name).data
      = ind.data ++ (("$ref:" : String).data ++ ((" param:" : String).data ++ name.data)) := by
    rw [data_append, data_append, hlit, List.append_assoc, List.append_assoc]
  have hrev : ∃ d ds, name.data.reverse = d :: ds ∧ isSpaceCh d = false := by
    cases hr : name.data.reverse with
    | nil => exact absurd (List.reverse_eq_nil_iff.mp hr) hne
    | cons d ds =>
      refine ⟨d, ds, rfl, plain_not_space (hplain d ?_)⟩
      exact List.mem_reverse.mp (by rw [hr]; simp)
  have hPdata : ("param:" ++ name).data
      = 'p' :: (("aram:" : String).data ++ name.data) := by
    rw [data_append, show ("param:" : String).data = 'p' :: ("aram:" : String).data from by decide]
    rfl
  have hPrev : ∃ d ds, ("param:" ++ name).data.reverse = d :: ds ∧ isSpaceCh d = false := by
    obtain ⟨d, ds, hd, hds⟩ := hrev
    refine ⟨d, ds ++ ("param:" : String).data.reverse, ?_, hds⟩
    rw [data_append, List.reverse_append, hd, List.cons_append]
  have hidx : strIndexOf (ind ++ "$ref: param:" ++ name) "$ref:" = some ind.data.length := by
    unfold strIndexOf
    rw [hdata]
    exact idxOfL_spaces _ _ _ (isPre_self_append _ _)
      ⟨'$', ("ref:" : String).data, by decide, by decide⟩ hind
  have hleft : takeS (ind ++ "$ref: param:" ++ name) ind.data.length = ind := by
    apply strExt
    show (ind ++ "$ref: param:" ++ name).data.take ind.data.length = ind.data
    rw [hdata]
    exact List.take_left _ _
  have hdrop : dropS (ind ++ "$ref: param:" ++ name) (ind.data.length + 5)
      = " param:" ++ name := by
    apply strExt
    show (ind ++ "$ref: param:" ++ name).data.drop (ind.data.length + 5)
      = (" param:" ++ name).data
    rw [hdata, data_append, ← List.append_assoc]
    have h5 : (ind.data ++ ("$ref:" : String).data).length = ind.data.length + 5 := by simp
    rw [← h5]
    exact List.drop_left _ _
  have hsp : (" param:" ++ name) = " " ++ ("param:" ++ name) := by
    apply strExt
    rw [data_append, data_append, data_append]
    rw [show (" param:" : String).data = (" " : String).data ++ ("param:" : String).data
      from by decide]
    rw [List.append_assoc]
  have htrims := trimSpaceS_one_space ("param:" ++ name)
    ⟨'p', _, hPdata, by decide⟩ hPrev
  have hrest : trimSpaceS (dropS (ind ++ "$ref: param:" ++ name) (ind.data.length + 5))
      = "param:" ++ name := by
    rw [hdrop, hsp]
    exact htrims.1
  have hrne : ¬ (("param:" ++ name) = "") := by
    intro h
    have h2 := congrArg String.data h
    rw [hPdata] at h2
    simp at h2
  have hsqv : stripQuotes ("param:" ++ name) = "param:" ++ name :=
    stripQuotes_no_quote _ htrims.2 ⟨'p', _, hPdata, by decide, by decide⟩
  have hcanon : strStarts ("param:" ++ name) "#/components/" = false := by
    unfold strStarts
    rw [hPdata, show ("#/components/" : String).data
      = '#' :: ("/components/" : String).data from by decide]
    simp [isPre]
  have hlowdata : (toLowerS ("param:" ++ name)).data
      = ("param:" : String).data ++ name.data.map Char.toLower := by
    show (("param:" ++ name).data.map Char.toLower)
      = ("param:" : String).data ++ name.data.map Char.toLower
    rw [data_append, List.map_append]
    rw [show (("param:" : String).data.map Char.toLower) = ("param:" : String).data
      from by decide]
  have hlownot : strStarts (toLowerS ("param:" ++ name)) "schema:" = false := by
    unfold strStarts
    rw [hlowdata]
    rw [show ("param:" : String).data = 'p' :: ("aram:" : String).data from by decide,
      show ("schema:" : String).data = 's' :: ("chema:" : String).data from by decide]
    simp [isPre]
  have hlow : strStarts (toLowerS ("param:" ++ name)) "param:" = true := by
    unfold strStarts
    rw [hlowdata]
    exact isPre_self_append _ _
  have hdrop6 : dropS ("param:" ++ name) 6 = name := by
    apply strExt
    show ("param:" ++ name).data.drop 6 = name.data
    rw [data_append, show (6 : Nat) = ("param:" : String).data.length from by decide]
    exact List.drop_left _ _
  have htrimname : trimSpaceS name = name := by
    obtain ⟨c, cs, hc⟩ : ∃ c cs, name.data = c :: cs := by
      cases hn : name.data with
      | nil => exact absurd hn hne
      | cons c cs => exact ⟨c, cs, rfl⟩
    exact (trimSpaceS_one_space name
      ⟨c, cs, hc, plain_not_space (hplain c (by rw [hc]; simp))⟩ hrev).2
  simp only [rewriteLine, hidx, hleft, hrest, hrne, hsqv, hcanon, hlownot, hlow, hdrop6,
    htrimname, if_false, Bool.false_eq_true, if_neg, not_false_iff, if_true]

/-- C5: on any line whose `$ref` value is the pseudo form `schema:<name>` or
`param:<name>` (space indentation, plain name characters), the Reference
Rewriter emits the canonical internal pointer with the name PascalCased;
in particular `schema:user-account` gives
`$ref: #/components/schemas/UserAccount` and `param:user-id` gives
`$ref: #/components/parameters/UserId`. -/
theorem refRewriter_pseudo :
    (∀ (sm pm : String → String) (ind name : String),
       (∀ c ∈ ind.data, c = ' ') → name.data ≠ [] →
       (∀ c ∈ name.data, plainNameCh c = true) →
       rewriteLine sm pm (ind ++ "$ref: schema:" ++ name) =
         ind ++ "$ref: #/components/schemas/" ++ pascalCase name ∧
       rewriteLine sm pm (ind ++ "$ref: param:" ++ name) =
         ind ++ "$ref: #/components/parameters/" ++ pascalCase name)
    ∧ rewriteRefs "$ref: schema:user-account" (fun _ => "") (fun _ => "") =
        "$ref: #/components/schemas/UserAccount"
    ∧ rewriteRefs "$ref: param:user-id" (fun _ => "") (fun _ => "") =
        "$ref: #/components/parameters/UserId" :=
  ⟨fun sm pm ind name h1 h2 h3 =>
    ⟨rewriteLine_pseudo_schema sm pm ind name h1 h2 h3,
     rewriteLine_pseudo_param sm pm ind name h1 h2 h3⟩,
   by decide, by decide⟩

/-- Witness for the general clause of `refRewriter_pseudo`. -/
theorem refRewriter_pseudo_witness :
    rewriteLine (fun _ => "") (fun _ => "") ("  " ++ "$ref: schema:" ++ "user-account") =
      "  " ++ "$ref: #/components/schemas/" ++ pascalCase "user-account" :=
  (refRewriter_pseudo.1 (fun _ => "") (fun _ => "") "  " "user-account"
    (by decide) (by decide) (by decide)).1

/-- C6: the Reference Rewriter is the identity on every line whose `$ref`
value already begins with `#/components/`, so applying it to its own output
changes nothing on such lines. -/
theorem refRewriter_canonical_fixed :
    (∀ (sm pm : String → String) (ln : String),
       refLineCanonical ln = true → rewriteLine sm pm ln = ln)
    ∧ rewriteRefs "  $ref: #/components/schemas/Foo\ny: 2" (fun _ => "") (fun _ => "") =
        "  $ref: #/components/schemas/Foo\ny: 2" := by
  constructor
  · intro sm pm ln h
    unfold refLineCanonical at h
    unfold rewriteLine
    cases hidx : strIndexOf ln "$ref:" with
    | none => rfl
    | some idx =>
      rw [hidx] at h
      simp only [Bool.and_eq_true, decide_eq_true_eq] at h
      obtain ⟨h1, h2⟩ := h
      simp only [h1, h2, if_neg, if_true, if_false, not_false_iff, ite_not]
  · decide

/-- Witness for `refRewriter_canonical_fixed`. -/
theorem refRewriter_canonical_witness :
    rewriteLine (fun _ => "") (fun _ => "") "  $ref: #/components/schemas/Foo" =
      "  $ref: #/components/schemas/Foo" :=
  refRewriter_canonical_fixed.1 (fun _ => "") (fun _ => "")
    "  $ref: #/components/schemas/Foo" (by decide)

theorem runFragments_halted (rules : List VRule) (stop : Bool) (pathsDir : String)
    (file : String) (spec : List (String × YVal))
    (rest : List (String × List (String × YVal))) (acc acc2 : List VResult)
    (hkey : ¬ buildPathKey pathsDir file = "")
    (hrun : runMethods rules stop (buildPathKey pathsDir file) spec acc = (acc2, true)) :
    runFragments rules stop pathsDir ((file, spec) :: rest) acc = (acc2, true) := by
  simp only [runFragments, if_neg hkey, hrun]

/-- C7: with stop-on-error set, the `restful` preset on `/v1/users` with a
`GET` operation missing `operationId` records exactly one result, named
`operation-id-present`, halts before any further method or fragment (the
output is independent of whatever fragments follow), and returns the
dedicated stopped-early error, distinct from the completed-with-violations
error of a full run. -/
theorem stopOnError_single_result :
    (∀ extra : List (String × List (String × YVal)),
       validatePaths "restful" true "/in/paths"
         (("/in/paths/v1/users.yaml",
           [("get", .obj [("summary", .other)]),
            ("post", .obj [("summary", .other)])]) :: extra)
         = ([⟨"/v1/users", "GET", "operation-id-present",
              "operation should have operationId", "error"⟩], some .stoppedEarly))
    ∧ VErr.stoppedEarly ≠ VErr.completedWithViolations
    ∧ validatePaths "restful" false "/in/paths"
        [("/in/paths/v1/users.yaml", [("get", .obj [("summary", .other)])])]
        = ([⟨"/v1/users", "GET", "operation-id-present",
             "operation should have operationId", "error"⟩],
           some .completedWithViolations) := by
  refine ⟨fun extra => ?_, by decide, by rfl⟩
  have hlook : lookupPreset "restful" = some restfulPreset := by rfl
  have hrun : runMethods restfulPreset.rules true
      (buildPathKey "/in/paths" "/in/paths/v1/users.yaml")
      [("get", .obj [("summary", .other)]), ("post", .obj [("summary", .other)])] []
      = ([⟨"/v1/users", "GET", "operation-id-present",
           "operation should have operationId", "error"⟩], true) := by rfl
  simp only [validatePaths, hlook]
  rw [runFragments_halted _ _ _ _ _ _ _ _ (by decide) hrun]

/-- Witness for `stopOnError_single_result` with a concrete trailing
fragment that is never examined. -/
theorem stopOnError_witness :
    validatePaths "restful" true "/in/paths"
      [("/in/paths/v1/users.yaml",
        [("get", .obj [("summary", .other)]), ("post", .obj [("summary", .other)])]),
       ("/in/paths/v1/orders.yaml", [("get", .obj [])])]
      = ([⟨"/v1/users", "GET", "operation-id-present",
           "operation should have operationId", "error"⟩], some .stoppedEarly) :=
  stopOnError_single_result.1 [("/in/paths/v1/orders.yaml", [("get", .obj [])])]

/-- C8: a preset name absent from the preset table makes `validatePaths`
fail immediately with the unknown-preset error and an empty result list,
whatever fragments were discovered — no fragment or rule is processed. -/
theorem unknownPreset_terminal :
    (∀ (name : String) (stop : Bool) (pathsDir : String)
       (frags : List (String × List (String × YVal))),
       lookupPreset name = none →
       validatePaths name stop pathsDir frags = ([], some (.unknownPreset name)))
    ∧ lookupPreset "zalando" = none := by
  refine ⟨fun name stop pathsDir frags h => ?_, by rfl⟩
  simp only [validatePaths, h]

/-- Witness for `unknownPreset_terminal` at the preset name `zalando`. -/
theorem unknownPreset_witness :
    validatePaths "zalando" true "/in/paths"
      [("/in/paths/v1/users.yaml", [("get", .obj [])])]
      = ([], some (.unknownPreset "zalando")) :=
  unknownPreset_terminal.1 "zalando" true "/in/paths"
    [("/in/paths/v1/users.yaml", [("get", .obj [])])] (by rfl)

theorem pluralViolation_flags (l : List String) (seg : String) (hmem : seg ∈ l)
    (hb : isBraced seg = false) (hv : isVersionSeg seg = false)
    (hs : toLowerS seg ∈ singularWords) :
    ∃ msg, pluralViolation l = some msg := by
  induction l with
  | nil => cases hmem
  | cons x xs ih =>
    simp only [pluralViolation]
    split_ifs with h1 h2
    · rcases List.mem_cons.mp hmem with rfl | hm2
      · rw [h1] at hb; cases hb
      · exact ih hm2
    · rcases List.mem_cons.mp hmem with rfl | hm2
      · rw [h2] at hv; cases hv
      · exact ih hm2
    · cases hf : List.find? (fun w => toLowerS x = w) singularWords with
      | some w => exact ⟨_, rfl⟩
      | none =>
        rcases List.mem_cons.mp hmem with rfl | hm2
        · have h3 := List.find?_eq_none.mp hf (toLowerS seg) hs
          simp at h3
        · exact ih hm2

/-- C9: the collection-names-plural rule flags any path segment, other than
`{param}` placeholders and `v<digits>` version segments, equal to an entry
of the fixed singular-noun list; and running the `google` preset against
`/v1/account/{accountId}` yields exactly the collection-names-plural
violation whose message suggests `accounts` (the plural built by the fixed
suffix rules of `makePlural`). -/
theorem pluralCollections_correct :
    (∀ (path method : String) (op : OpObj) (seg : String),
       seg ∈ pathSegments path → isBraced seg = false → isVersionSeg seg = false →
       seg ∈ singularWords →
       ∃ msg, validatePluralCollections path method op = some msg)
    ∧ validatePaths "google" false "/in/paths"
        [("/in/paths/v1/account/\x7baccountId\x7d.yaml",
          [("get", .obj [("operationId", .other), ("summary", .other),
                         ("responses", .obj [("200", .other)])])])]
        = ([⟨"/v1/account/\x7baccountId\x7d", "GET", "collection-names-plural",
             "collection name " ++ quoted "account" ++ " should be plural: " ++
               quoted "accounts", "error"⟩],
           some .completedWithViolations) := by
  constructor
  · intro path method op seg hmem hb hv hsin
    have hlower : ∀ w ∈ singularWords, toLowerS w = w := by decide
    have hs : toLowerS seg ∈ singularWords := by rw [hlower seg hsin]; exact hsin
    exact pluralViolation_flags (pathSegments path) seg hmem hb hv hs
  · rfl

/-- Witness for the general clause of `pluralCollections_correct`. -/
theorem pluralCollections_witness :
    ∃ msg, validatePluralCollections "/v1/account/\x7baccountId\x7d" "get"
      [("operationId", YVal.other)] = some msg :=
  pluralCollections_correct.1 "/v1/account/\x7baccountId\x7d" "get"
    [("operationId", YVal.other)] "account" (by decide) (by decide) (by decide) (by decide)

/-- C10: the http-methods-rest rule accepts a method exactly when its
lower-cased form is one of the seven methods get, post, put, patch, delete,
head and options, although the rule's own description names only five. -/
theorem httpMethods_allowlist :
    (∀ (path method : String) (op : OpObj),
       validateHTTPMethods path method op = none ↔
         toLowerS method ∈ ["get", "post", "put", "patch", "delete", "head", "options"])
    ∧ httpMethodsRule.description = "Use standard HTTP methods (GET, POST, PUT, PATCH, DELETE)"
    ∧ httpMethodsRule.validate = validateHTTPMethods := by
  refine ⟨fun path method op => ?_, rfl, rfl⟩
  unfold validateHTTPMethods
  cases h : validMethods.contains (toLowerS method) with
  | true =>
    simp only [h, if_true, if_pos]
    constructor
    · intro _
      exact List.elem_iff.mp h
    · intro _
      trivial
  | false =>
    simp only [h, Bool.false_eq_true, if_false, if_neg, not_false_iff]
    constructor
    · intro hc
      cases hc
    · intro hmem
      have h2 : validMethods.contains (toLowerS method) = true := List.elem_iff.mpr hmem
      rw [h] at h2
      cases h2

/-- Witness for `httpMethods_allowlist`. -/
theorem httpMethods_witness :
    validateHTTPMethods "/v1/users" "GET" [] = none :=
  (httpMethods_allowlist.1 "/v1/users" "GET" []).mpr (by decide)

end Oas
